import Mathlib

/-!
Shallow embedding of the section-node core (chunk storage, reward ledger,
reward calculator) and proofs about it.

Machine integers (`u64`) are modelled as `Nat` with an explicit `% 2^64`
wherever the source arithmetic can wrap.  `BTreeMap`/`HashMap` values are
modelled as association lists; `BTreeMap` iteration order (ascending keys)
is reproduced by sorted insertion.  Division by zero yields `0` in this
model (the source would panic there); the theorems keep divisors positive
where the distinction matters.
-/

namespace SnNode

/-- 2^64, the modulus of `u64` arithmetic. -/
def U64 : Nat := 2 ^ 64

/-- Wrapping `u64` multiplication. -/
def wmul (a b : Nat) : Nat := (a * b) % U64

/-! ## Reward calculator: minting (src/section_funds/reward_calc.rs, `get_reward_and_mint_amount`) -/

/-- Translation of `get_reward_and_mint_amount`.  Inputs and output are
token amounts in nanos (`u64`).  The addition `payments + to_be_minted`
is the one place the source can wrap, so it carries the modulus. -/
def get_reward_and_mint_amount (payments section_managed max_supply : Nat) : Nat :=
  if section_managed < max_supply then
    let to_be_minted := min payments (max_supply - section_managed)
    (payments + to_be_minted) % U64
  else
    let excess_supply := section_managed - max_supply
    if excess_supply < payments then payments - excess_supply else 0

/-! ## Chunk storage (src/chunks/chunk_storage.rs)

The underlying `BlobChunkStore` (`has`/`get`/`put`/`delete` and the
used-space counter) is not under `src/`; those four primitives are
modelled from the spec (section 4.1): `put` is atomic and bumps used
space by the blob length, `delete` decrements it by the stored length.
I/O failures are not modelled.  The decision logic of
`ChunkStorage::try_store` / `store` / `delete` is translated from the
source. -/

/-- A blob as `ChunkStorage` consumes it: kind tag, the optional owner
key returned by `Blob::owner()` (`none` for public blobs), the content
address, and the raw bytes. -/
structure Blob where
  isPrivate : Bool
  owner : Option Nat
  addr : Nat
  bytes : List Nat
deriving DecidableEq

/-- Modelled from the spec: the chunk store state, a map from blob
address to blob plus the used-space counter. -/
structure ChunkStore where
  chunks : List (Nat × Blob)
  used : Nat
deriving DecidableEq

/-- Modelled from the spec: `ChunkStore::has`. -/
def hasChunk (st : ChunkStore) (a : Nat) : Bool :=
  (st.chunks.find? (fun p => p.1 == a)).isSome

/-- Modelled from the spec: `ChunkStore::get` (`none` on miss). -/
def getChunk (st : ChunkStore) (a : Nat) : Option Blob :=
  (st.chunks.find? (fun p => p.1 == a)).map Prod.snd

/-- Modelled from the spec: `ChunkStore::put`; callers check `has` first. -/
def putChunk (st : ChunkStore) (b : Blob) : ChunkStore :=
  { chunks := (b.addr, b) :: st.chunks, used := st.used + b.bytes.length }

/-- Modelled from the spec: `ChunkStore::delete`, decrementing used space
by the stored length. -/
def delChunk (st : ChunkStore) (a : Nat) : ChunkStore :=
  match getChunk st a with
  | some b =>
      { chunks := st.chunks.filter (fun p => p.1 != a), used := st.used - b.bytes.length }
  | none => st

/-- The error values the chunk-storage paths can put on the wire. -/
inductive DataError
  | invalidOwners (key : Nat)
  | dataExists
  | invalidOperation
  | noSuchKey
  | noSuchData
  | failedToDelete
deriving DecidableEq

/-- The duty a chunk-storage operation returns: nothing, or a
`CmdError` sent back to the origin end user. -/
inductive ChunkDuty
  | noOp
  | sendCmdError (e : DataError) (origin : Nat)
deriving DecidableEq

namespace ChunkStorage

/-- The duplicate check and put shared by both `try_store` branches
(the tail of `ChunkStorage::try_store` after the ownership guard). -/
def storeChecked (st : ChunkStore) (data : Blob) : Except DataError ChunkStore :=
  if hasChunk st data.addr then Except.error DataError.dataExists
  else Except.ok (putChunk st data)

/-- Translation of `ChunkStorage::try_store`: for a private blob, a
missing owner key or an owner different from the origin's key fails
with `InvalidOwners(origin)`; then the duplicate check, then the put. -/
def try_store (st : ChunkStore) (data : Blob) (origin : Nat) : Except DataError ChunkStore :=
  if data.isPrivate then
    match data.owner with
    | none => Except.error (DataError.invalidOwners origin)
    | some data_owner =>
        if data_owner ≠ origin then Except.error (DataError.invalidOwners origin)
        else storeChecked st data
  else storeChecked st data

/-- Translation of `ChunkStorage::store`: wrap a `try_store` error into
a `CmdError` duty addressed to the origin, else no duty. -/
def store (st : ChunkStore) (data : Blob) (origin : Nat) : ChunkStore × ChunkDuty :=
  match try_store st data origin with
  | Except.error e => (st, ChunkDuty.sendCmdError e origin)
  | Except.ok st' => (st', ChunkDuty.noOp)

/-- Translation of `ChunkStorage::delete`: a missing address yields no
duty; a stored public blob yields `InvalidOperation`; a stored private
blob is deleted when the origin is the owner and yields `InvalidOwners`
otherwise; a `get` miss after a `has` hit yields `NoSuchKey`. -/
def delete (st : ChunkStore) (addr : Nat) (origin : Nat) : ChunkStore × ChunkDuty :=
  if ¬ hasChunk st addr then (st, ChunkDuty.noOp)
  else
    match getChunk st addr with
    | some b =>
        if b.isPrivate then
          if b.owner = some origin then (delChunk st addr, ChunkDuty.noOp)
          else (st, ChunkDuty.sendCmdError (DataError.invalidOwners origin) origin)
        else (st, ChunkDuty.sendCmdError DataError.invalidOperation origin)
    | none => (st, ChunkDuty.sendCmdError DataError.noSuchKey origin)

end ChunkStorage

/-! ## Reward ledger (src/node/elder_duties/rewards/mod.rs)

The `FarmingSystem` (module `system`) and the message wrapping /
section-funds senders are not under `src/`; they are modelled from the
spec: section 4.4 for the farming system (`add_account` fails if the id is
already present; `claim` returns and removes the counter, failing for an
unknown id), and sections 4.5-4.6 for the destinations of the emitted
duties.  The handlers themselves are translated from the source. -/

/-- `RewardCounter`: accumulated work and unpaid reward (nanos). -/
structure RewardCounter where
  work : Nat
  reward : Nat
deriving DecidableEq

/-- The per-node account state (`RewardAccount` in the source). -/
inductive RewardAccount
  | awaitingStart
  | active (id : Nat)
  | awaitingMove (id : Nat)
deriving DecidableEq

/-- Replace-or-append insertion, the model of `HashMap::insert`. -/
def upsert {α : Type} (k : Nat) (v : α) : List (Nat × α) → List (Nat × α)
  | [] => [(k, v)]
  | (k', v') :: t => if k' = k then (k, v) :: t else (k', v') :: upsert k v t

/-- Key lookup in an association list (`HashMap::get`). -/
def alookup {α : Type} (k : Nat) : List (Nat × α) → Option α
  | [] => none
  | (k', v') :: t => if k' = k then some v' else alookup k t

/-- Key removal from an association list (`HashMap::remove`). -/
def aremove {α : Type} (k : Nat) (l : List (Nat × α)) : List (Nat × α) :=
  l.filter (fun p => p.1 != k)

/-- Modelled from the spec: the farming system's account map
(account id to reward counter). -/
structure FarmingSystem where
  accounts : List (Nat × RewardCounter)
deriving DecidableEq

/-- Modelled from the spec: `FarmingSystem::add_account` creates an
entry with the given initial work (and no unpaid reward); it fails if
the id is already present. -/
def FarmingSystem.add_account (f : FarmingSystem) (id work : Nat) :
    Except Unit FarmingSystem :=
  match alookup id f.accounts with
  | some _ => Except.error ()
  | none => Except.ok ⟨(id, ⟨work, 0⟩) :: f.accounts⟩

/-- Modelled from the spec: `FarmingSystem::claim` returns and removes
the account's counter, failing for an unknown id. -/
def FarmingSystem.claim (f : FarmingSystem) (id : Nat) :
    Except Unit (RewardCounter × FarmingSystem) :=
  match alookup id f.accounts with
  | some c => Except.ok (c, ⟨aremove id f.accounts⟩)
  | none => Except.error ()

/-- The error payload of a `RewardClaiming` network error: the
`InvalidClaim` reply for an account that is not awaiting move, or the
propagated farming-claim failure. -/
inductive ClaimError
  | invalidClaim
  | farmingError
deriving DecidableEq

/-- The duties the reward handlers emit.  Destinations follow the spec:
`sendClaimRewardCounter` goes to the old section,
`sendRewardCounterClaimed` and the claim errors go back to the origin,
`payout` asks the section funds to pay the account. -/
inductive MessagingDuty
  | sendClaimRewardCounter (old_node_id new_node_id : Nat)
  | sendRewardCounterClaimed (new_node_id account_id : Nat)
      (counter : RewardCounter) (correlation_id origin : Nat)
  | networkError (e : ClaimError) (account_id msg_id origin : Nat)
  | payout (amount account_id : Nat)
deriving DecidableEq

/-- The mutable state of the `Rewards` elder duty: the farming system
and the node-account map. -/
structure Rewards where
  farming : FarmingSystem
  node_accounts : List (Nat × RewardAccount)
deriving DecidableEq

namespace Rewards

/-- Translation of `Rewards::add_account` (the `AddNewAccount` handler):
an unconditional insert of `Active(id)`, no duty. -/
def add_account (s : Rewards) (id node_id : Nat) : Rewards × Option MessagingDuty :=
  ({ s with node_accounts := upsert node_id (RewardAccount.active id) s.node_accounts },
   none)

/-- Translation of `Rewards::add_relocated_account` (the
`AddRelocatedAccount` handler): an unconditional insert of
`AwaitingStart` for the new name, and a `ClaimRewardCounter` cmd to the
old section. -/
def add_relocated_account (s : Rewards) (old_node_id new_node_id : Nat) :
    Rewards × Option MessagingDuty :=
  ({ s with node_accounts := upsert new_node_id RewardAccount.awaitingStart s.node_accounts },
   some (MessagingDuty.sendClaimRewardCounter old_node_id new_node_id))

/-- Translation of `Rewards::receive_claimed_rewards`: an unknown node
or an account not in `AwaitingStart` is dropped; otherwise the farming
account is added with the counter's work, the map entry becomes
`Active(id)`, and a payout duty is emitted when the counter carries a
positive reward.  A farming `add_account` failure is also dropped. -/
def receive_claimed_rewards (s : Rewards) (id node_id : Nat) (counter : RewardCounter) :
    Rewards × Option MessagingDuty :=
  match alookup node_id s.node_accounts with
  | none => (s, none)
  | some account =>
      if account ≠ RewardAccount.awaitingStart then (s, none)
      else
        match s.farming.add_account id counter.work with
        | Except.ok f' =>
            let s' : Rewards :=
              { farming := f',
                node_accounts := upsert node_id (RewardAccount.active id) s.node_accounts }
            if 0 < counter.reward then (s', some (MessagingDuty.payout counter.reward id))
            else (s', none)
        | Except.error _ => (s, none)

/-- Translation of `Rewards::node_left` (the `PrepareAccountMove`
handler): an `Active(id)` entry becomes `AwaitingMove(id)`; any other
state is left alone. -/
def node_left (s : Rewards) (node_id : Nat) : Rewards × Option MessagingDuty :=
  match alookup node_id s.node_accounts with
  | some (RewardAccount.active id) =>
      ({ s with node_accounts := upsert node_id (RewardAccount.awaitingMove id) s.node_accounts },
       none)
  | _ => (s, none)

/-- Translation of `Rewards::claim_rewards` (the `ClaimRewardCounter`
handler): `AwaitingMove(id)` claims the farming counter, removes the old
name and emits `RewardCounterClaimed` (a failed farming claim instead
replies with the error and leaves the map untouched); `Active(id)`
replies with the `InvalidClaim` error; `AwaitingStart` or an unknown
name is dropped. -/
def claim_rewards (s : Rewards) (old_node_id new_node_id msg_id origin : Nat) :
    Rewards × Option MessagingDuty :=
  match alookup old_node_id s.node_accounts with
  | some (RewardAccount.awaitingMove account_id) =>
      (match s.farming.claim account_id with
       | Except.ok (counter, f') =>
           ({ farming := f', node_accounts := aremove old_node_id s.node_accounts },
            some (MessagingDuty.sendRewardCounterClaimed new_node_id account_id counter
              msg_id origin))
       | Except.error _ =>
           (s, some (MessagingDuty.networkError ClaimError.farmingError account_id msg_id origin)))
  | some (RewardAccount.active id) =>
      (s, some (MessagingDuty.networkError ClaimError.invalidClaim id msg_id origin))
  | some RewardAccount.awaitingStart => (s, none)
  | none => (s, none)

end Rewards

/-! ## Reward calculator: age-weighted distribution
(src/section_funds/reward_calc.rs, `distribute_rewards` / `get_buckets` /
`distribute`)

The input `BTreeMap<XorName, (NodeAge, PublicKey)>` is a list of
`(name, age, wallet)` triples; the bucket map
`BTreeMap<NodeAge, BTreeMap<XorName, PublicKey>>` is a list of
`(age, wallets)` pairs kept sorted ascending by age, each wallet list
sorted ascending by name, reproducing `BTreeMap` iteration order.  The
`while` loop is modelled with fuel `amount + 1`: one pass either
strictly decreases the remaining amount, so that `amount` passes
suffice, or leaves it unchanged, in which case the source loops forever
and the model returns `none`. -/

def MIN_REWARD_AGE : Nat := 6

/-- `2_u64.pow(age)`, wrapping. -/
def pow2w (age : Nat) : Nat := (2 ^ age) % U64

/-- Decimal-digit count with explicit fuel, the model of
`remaining_amount.to_string().len()`. -/
def numDigitsAux : Nat → Nat → Nat
  | 0, _ => 1
  | fuel + 1, n => if n < 10 then 1 else numDigitsAux fuel (n / 10) + 1

/-- Number of decimal digits of `n`. -/
def numDigits (n : Nat) : Nat := numDigitsAux n n

/-- One reward bucket: the age and its `(name, wallet)` entries. -/
abbrev Bucket := Nat × List (Nat × Nat)

/-- Sorted insertion of a `(name, wallet)` entry into a bucket's wallet
list (`BTreeMap::insert`: an equal name is replaced). -/
def insWallet (n w : Nat) : List (Nat × Nat) → List (Nat × Nat)
  | [] => [(n, w)]
  | (n', w') :: t =>
      if n < n' then (n, w) :: (n', w') :: t
      else if n = n' then (n, w) :: t
      else (n', w') :: insWallet n w t

/-- Sorted insertion of a node into the bucket list keyed by age
(`reward_buckets.entry(age).or_insert_with(..).insert(..)`). -/
def insBucket (age n w : Nat) : List Bucket → List Bucket
  | [] => [(age, [(n, w)])]
  | (a, ws) :: t =>
      if age < a then (age, [(n, w)]) :: (a, ws) :: t
      else if age = a then (a, insWallet n w ws) :: t
      else (a, ws) :: insBucket age n w t

/-- Translation of `get_buckets`: nodes of age at least
`MIN_REWARD_AGE` grouped into buckets keyed by age. -/
def get_buckets (nodes : List (Nat × Nat × Nat)) : List Bucket :=
  nodes.foldl
    (fun bs node =>
      if MIN_REWARD_AGE ≤ node.2.1 then insBucket node.2.1 node.1 node.2.2 bs else bs)
    []

/-- `counters.entry(age).and_modify(|e| *e += reward).or_insert(reward)`.
The running totals stay below the `u64` input `amount` (the loop only
moves tokens from `remaining_amount` into `counters`), so this addition
never wraps. -/
def addCounter (age reward : Nat) : List (Nat × Nat) → List (Nat × Nat)
  | [] => [(age, reward)]
  | (a, r) :: t => if a = age then (a, r + reward) :: t else (a, r) :: addCounter age reward t

/-- The per-pass `u64` reward of a bucket:
`(2^age * wallets.len()) * bucket_multiplier`, each product wrapping. -/
def bweight (mult : Nat) (b : Bucket) : Nat := wmul (wmul (pow2w b.1) b.2.length) mult

/-- The body of the `for (age, wallets) in &reward_buckets` loop:
credit each bucket `min(weight, remaining)`, breaking as soon as the
remaining amount hits zero. -/
def passBuckets (mult : Nat) : List Bucket → List (Nat × Nat) → Nat → List (Nat × Nat) × Nat
  | [], cs, rem => (cs, rem)
  | b :: t, cs, rem =>
      let reward := min (bweight mult b) rem
      let cs' := addCounter b.1 reward cs
      let rem' := rem - reward
      if rem' = 0 then (cs', rem') else passBuckets mult t cs' rem'

/-- The `while remaining_amount > 0` loop, with fuel: each fuel step is
one pass over the buckets. -/
def loopWhile (mult : Nat) (bs : List Bucket) : Nat → List (Nat × Nat) → Nat →
    Option (List (Nat × Nat))
  | _, cs, 0 => some cs
  | 0, _, _ + 1 => none
  | fuel + 1, cs, rem + 1 =>
      let st := passBuckets mult bs cs (rem + 1)
      loopWhile mult bs fuel st.1 st.2

/-- The bucket multiplier computed before the loop:
`max(1, (amount / (max_age * node_count)) / (max_age * digits))`. -/
def multOf (amount : Nat) (bs : List Bucket) : Nat :=
  let max_age := ((bs.map Prod.fst).max?).getD 1
  let node_count := (bs.map (fun b => b.2.length)).sum
  let share := amount / wmul max_age node_count
  let divisor := wmul max_age (numDigits amount)
  max 1 (share / divisor)

/-- Splitting one bucket's accumulated reward across its wallets: each
gets the integer share, the first (lowest-name) node also gets the
division remainder.  Entries are `(name, age, wallet, token share)`. -/
def splitBucket (age reward : Nat) (ws : List (Nat × Nat)) : List (Nat × Nat × Nat × Nat) :=
  let per := reward / ws.length
  let rm := reward % ws.length
  match ws with
  | [] => []
  | (n, w) :: rest => (n, age, w, per + rm) :: rest.map (fun p => (p.1, age, p.2, per))

/-- The bucket for an age (`reward_buckets.get(&age).unwrap()`). -/
def bucketFor (bs : List Bucket) (age : Nat) : List (Nat × Nat) :=
  match bs.find? (fun b => b.1 == age) with
  | some b => b.2
  | none => []

/-- The final `for (age, reward) in counters` loop building the result
map. -/
def finalize (bs : List Bucket) (cs : List (Nat × Nat)) : List (Nat × Nat × Nat × Nat) :=
  (cs.map (fun c => splitBucket c.1 c.2 (bucketFor bs c.1))).flatten

/-- Translation of `distribute`: empty buckets short-circuit to the
empty map; otherwise the multiplier is fixed, the while loop runs
(`none` models the source looping forever), and the counters are split
per wallet. -/
def distribute (amount : Nat) (bs : List Bucket) : Option (List (Nat × Nat × Nat × Nat)) :=
  if bs.isEmpty then some []
  else (loopWhile (multOf amount bs) bs (amount + 1) [] amount).map (finalize bs)

/-- Translation of `distribute_rewards`. -/
def distribute_rewards (amount : Nat) (nodes : List (Nat × Nat × Nat)) :
    Option (List (Nat × Nat × Nat × Nat)) :=
  distribute amount (get_buckets nodes)

/-! ## Association-list lemmas -/

theorem alookup_upsert_self {α : Type} (k : Nat) (v : α) (l : List (Nat × α)) :
    alookup k (upsert k v l) = some v := by
  induction l with
  | nil => simp [upsert, alookup]
  | cons hd t ih =>
      obtain ⟨k', v'⟩ := hd
      by_cases hk : k' = k
      · simp [upsert, hk, alookup]
      · simpa [upsert, hk, alookup] using ih

theorem alookup_upsert_other {α : Type} (k m : Nat) (v : α) (l : List (Nat × α))
    (hm : m ≠ k) : alookup m (upsert k v l) = alookup m l := by
  have hm' : k ≠ m := Ne.symm hm
  induction l with
  | nil => simp [upsert, alookup, hm']
  | cons hd t ih =>
      obtain ⟨k', v'⟩ := hd
      by_cases hk : k' = k
      · subst hk
        simp [upsert, alookup, hm']
      · by_cases hkm : k' = m <;> simp [upsert, hk, alookup, hkm, hm, ih]

theorem alookup_aremove_self {α : Type} (k : Nat) (l : List (Nat × α)) :
    alookup k (aremove k l) = none := by
  induction l with
  | nil => simp [aremove, alookup]
  | cons hd t ih =>
      obtain ⟨k', v'⟩ := hd
      by_cases hk : k' = k
      · simpa [aremove, List.filter_cons, hk] using ih
      · simpa [aremove, List.filter_cons, hk, alookup] using ih

/-! ## Chunk-storage lemmas -/

theorem hasChunk_of_getChunk {st : ChunkStore} {a : Nat} {b : Blob}
    (h : getChunk st a = some b) : hasChunk st a = true := by
  unfold getChunk at h
  unfold hasChunk
  cases hfind : st.chunks.find? (fun p => p.1 == a) with
  | none => rw [hfind] at h; simp at h
  | some p => simp

theorem find?_filter_ne (a : Nat) (l : List (Nat × Blob)) :
    (l.filter (fun p => p.1 != a)).find? (fun p => p.1 == a) = none := by
  induction l with
  | nil => simp
  | cons hd t ih =>
      obtain ⟨x, b⟩ := hd
      by_cases hk : x = a
      · simp [List.filter_cons, hk, ih]
      · simp [List.filter_cons, List.find?_cons, hk, ih]

theorem hasChunk_delChunk_self (st : ChunkStore) (a : Nat) {b : Blob}
    (h : getChunk st a = some b) : hasChunk (delChunk st a) a = false := by
  unfold delChunk
  rw [h]
  unfold hasChunk
  simp [find?_filter_ne]

/-! ## Claim theorems: minting -/

/-- C3: `get_reward_and_mint_amount` is at most twice the payments; in
the mint branch (`max_supply > section_managed`) the minted portion
`min(payments, max_supply - section_managed)` keeps the managed total
within `max_supply`; and the two concrete scenarios evaluate to 200 and
0 as the spec states. -/
theorem mint_amount_bounds (payments section_managed max_supply : Nat) :
    get_reward_and_mint_amount payments section_managed max_supply ≤ 2 * payments ∧
    (section_managed < max_supply →
      section_managed + min payments (max_supply - section_managed) ≤ max_supply) ∧
    get_reward_and_mint_amount 100 0 1000 = 200 ∧
    get_reward_and_mint_amount 50 1200 1000 = 0 := by
  refine ⟨?_, ?_, by decide, by decide⟩
  · by_cases h1 : section_managed < max_supply
    · have he : get_reward_and_mint_amount payments section_managed max_supply
          = (payments + min payments (max_supply - section_managed)) % U64 := by
        simp [get_reward_and_mint_amount, h1]
      have h2 := Nat.mod_le (payments + min payments (max_supply - section_managed)) U64
      have h3 := min_le_left payments (max_supply - section_managed)
      omega
    · have he : get_reward_and_mint_amount payments section_managed max_supply
          = if section_managed - max_supply < payments
            then payments - (section_managed - max_supply) else 0 := by
        simp [get_reward_and_mint_amount, h1]
      rw [he]
      split <;> omega
  · intro h
    have h3 := min_le_right payments (max_supply - section_managed)
    omega

/-- Witness for C3 at the spec's concrete inputs. -/
theorem mint_amount_bounds_witness :
    get_reward_and_mint_amount 100 0 1000 ≤ 2 * 100 ∧ 0 + min 100 (1000 - 0) ≤ 1000 :=
  ⟨(mint_amount_bounds 100 0 1000).1, (mint_amount_bounds 100 0 1000).2.1 (by decide)⟩

/-! ## Claim theorems: chunk storage -/

/-- C6: storing a private blob whose owner key is not the origin's key
fails with `InvalidOwners` sent to the origin and leaves the store (and
its used space) untouched, even when the address is already held — the
ownership check precedes the duplicate check; storing any blob that
passes the ownership check while its address is already held emits
`DataExists` and changes nothing. -/
theorem store_ownership_and_duplicate (st : ChunkStore) (data : Blob) (origin : Nat) :
    (data.isPrivate = true → data.owner ≠ some origin →
      ChunkStorage.store st data origin
        = (st, ChunkDuty.sendCmdError (DataError.invalidOwners origin) origin)) ∧
    (hasChunk st data.addr = true → (data.isPrivate = false ∨ data.owner = some origin) →
      ChunkStorage.store st data origin
        = (st, ChunkDuty.sendCmdError DataError.dataExists origin)) := by
  constructor
  · intro hpriv howner
    unfold ChunkStorage.store ChunkStorage.try_store
    rw [hpriv]
    cases hown : data.owner with
    | none => simp
    | some o =>
        have : o ≠ origin := by rintro rfl; exact howner hown
        simp [this]
  · intro hhas hok
    unfold ChunkStorage.store ChunkStorage.try_store ChunkStorage.storeChecked
    rcases hok with hpub | hown
    · simp [hpub, hhas]
    · cases hpriv : data.isPrivate <;> simp [hown, hhas]

/-- Witness for C6: a private blob owned by key 7 stored by origin 9 is
rejected with `InvalidOwners`, and restoring a held public blob yields
`DataExists`. -/
theorem store_ownership_and_duplicate_witness :
    ChunkStorage.store ⟨[], 0⟩ ⟨true, some 7, 0, [1]⟩ 9
      = (⟨[], 0⟩, ChunkDuty.sendCmdError (DataError.invalidOwners 9) 9) ∧
    ChunkStorage.store (putChunk ⟨[], 0⟩ ⟨false, none, 3, [1]⟩) ⟨false, none, 3, [1]⟩ 9
      = (putChunk ⟨[], 0⟩ ⟨false, none, 3, [1]⟩,
         ChunkDuty.sendCmdError DataError.dataExists 9) :=
  ⟨(store_ownership_and_duplicate ⟨[], 0⟩ ⟨true, some 7, 0, [1]⟩ 9).1 rfl (by decide),
   (store_ownership_and_duplicate (putChunk ⟨[], 0⟩ ⟨false, none, 3, [1]⟩)
      ⟨false, none, 3, [1]⟩ 9).2 (by decide) (Or.inl rfl)⟩

/-- C10: a private blob with no owner key at all is rejected with
`InvalidOwners` naming the origin's key, and nothing is persisted. -/
theorem store_private_missing_owner (st : ChunkStore) (bs : List Nat) (a origin : Nat) :
    ChunkStorage.store st ⟨true, none, a, bs⟩ origin
      = (st, ChunkDuty.sendCmdError (DataError.invalidOwners origin) origin) := by
  unfold ChunkStorage.store ChunkStorage.try_store
  simp

/-- C7 counterexample: after the owner deletes a stored private blob, a
second delete of the same address produces no duty at all (the
`!has(addr)` early return), not a `NoSuchData` error as the claim
states. -/
theorem delete_twice_no_duty_cex :
    (ChunkStorage.delete
        (ChunkStorage.delete (putChunk ⟨[], 0⟩ ⟨true, some 5, 0, [1, 2, 3]⟩) 0 5).1 0 5).2
      = ChunkDuty.noOp ∧
    ChunkDuty.noOp ≠ ChunkDuty.sendCmdError DataError.noSuchData 5 := by
  decide

/-- C7 (amended): delete of an address not held produces no duty; delete
of a stored public blob returns `InvalidOperation` regardless of caller;
delete of a stored private blob by a non-owner returns `InvalidOwners`
and by the owner succeeds; a second delete of the same private blob
again produces no duty (silently idempotent), rather than a
`NoSuchData` error. -/
theorem delete_dispatch (st : ChunkStore) (addr origin : Nat) (b : Blob) :
    (hasChunk st addr = false → ChunkStorage.delete st addr origin = (st, ChunkDuty.noOp)) ∧
    (getChunk st addr = some b → b.isPrivate = false →
      ChunkStorage.delete st addr origin
        = (st, ChunkDuty.sendCmdError DataError.invalidOperation origin)) ∧
    (getChunk st addr = some b → b.isPrivate = true → b.owner ≠ some origin →
      ChunkStorage.delete st addr origin
        = (st, ChunkDuty.sendCmdError (DataError.invalidOwners origin) origin)) ∧
    (getChunk st addr = some b → b.isPrivate = true → b.owner = some origin →
      ChunkStorage.delete st addr origin = (delChunk st addr, ChunkDuty.noOp) ∧
      ChunkStorage.delete (delChunk st addr) addr origin
        = (delChunk st addr, ChunkDuty.noOp)) := by
  refine ⟨?_, ?_, ?_, ?_⟩
  · intro hhas
    unfold ChunkStorage.delete
    simp [hhas]
  · intro hget hpub
    unfold ChunkStorage.delete
    simp [hasChunk_of_getChunk hget, hget, hpub]
  · intro hget hpriv hown
    unfold ChunkStorage.delete
    simp [hasChunk_of_getChunk hget, hget, hpriv, hown]
  · intro hget hpriv hown
    have hdel : ChunkStorage.delete st addr origin = (delChunk st addr, ChunkDuty.noOp) := by
      unfold ChunkStorage.delete
      simp [hasChunk_of_getChunk hget, hget, hpriv, hown]
    refine ⟨hdel, ?_⟩
    unfold ChunkStorage.delete
    simp [hasChunk_delChunk_self st addr hget]

/-- Witness for C7: exercises all four cases on concrete stores (a
public blob at address 3, a private blob owned by 5 at address 0). -/
theorem delete_dispatch_witness :
    ChunkStorage.delete ⟨[], 0⟩ 0 5 = (⟨[], 0⟩, ChunkDuty.noOp) ∧
    ChunkStorage.delete (putChunk ⟨[], 0⟩ ⟨false, none, 3, [1]⟩) 3 5
      = (putChunk ⟨[], 0⟩ ⟨false, none, 3, [1]⟩,
         ChunkDuty.sendCmdError DataError.invalidOperation 5) ∧
    ChunkStorage.delete (putChunk ⟨[], 0⟩ ⟨true, some 5, 0, [1]⟩) 0 8
      = (putChunk ⟨[], 0⟩ ⟨true, some 5, 0, [1]⟩,
         ChunkDuty.sendCmdError (DataError.invalidOwners 8) 8) ∧
    ChunkStorage.delete (putChunk ⟨[], 0⟩ ⟨true, some 5, 0, [1]⟩) 0 5
      = (delChunk (putChunk ⟨[], 0⟩ ⟨true, some 5, 0, [1]⟩) 0, ChunkDuty.noOp) :=
  ⟨(delete_dispatch ⟨[], 0⟩ 0 5 ⟨false, none, 0, []⟩).1 (by decide),
   (delete_dispatch (putChunk ⟨[], 0⟩ ⟨false, none, 3, [1]⟩) 3 5 ⟨false, none, 3, [1]⟩).2.1
      (by decide) rfl,
   ((delete_dispatch (putChunk ⟨[], 0⟩ ⟨true, some 5, 0, [1]⟩) 0 8 ⟨true, some 5, 0, [1]⟩).2.2.1
      (by decide) rfl (by decide)),
   ((delete_dispatch (putChunk ⟨[], 0⟩ ⟨true, some 5, 0, [1]⟩) 0 5 ⟨true, some 5, 0, [1]⟩).2.2.2
      (by decide) rfl rfl).1⟩

/-! ## Claim theorems: reward ledger -/

/-- C1 counterexample: `AddNewAccount` for a name already mapped to
`Active(1)` overwrites the entry with `Active(2)` — the existing entry
is not left unchanged, so duplicates are overwritten, not dropped. -/
theorem add_account_overwrites_cex :
    (Rewards.add_account ⟨⟨[]⟩, [(0, RewardAccount.active 1)]⟩ 2 0).1.node_accounts
      = [(0, RewardAccount.active 2)] ∧
    RewardAccount.active 2 ≠ RewardAccount.active 1 := by
  decide

/-- C1 (amended): `AddNewAccount` and `AddRelocatedAccount` insert
unconditionally: after `AddNewAccount(id, node)` the map holds
`Active(id)` for `node` and after `AddRelocatedAccount(old, new)` it
holds `AwaitingStart` for `new`, whatever entry (if any) was there
before — an existing entry is overwritten, not dropped — while every
other name keeps its entry; `AddRelocatedAccount` also emits the
`ClaimRewardCounter` cmd for the old section. -/
theorem account_insertion_overwrites (s : Rewards) (id old_id new_id node_id m : Nat) :
    alookup node_id ((Rewards.add_account s id node_id).1.node_accounts)
      = some (RewardAccount.active id) ∧
    alookup new_id ((Rewards.add_relocated_account s old_id new_id).1.node_accounts)
      = some RewardAccount.awaitingStart ∧
    (m ≠ node_id → alookup m ((Rewards.add_account s id node_id).1.node_accounts)
      = alookup m s.node_accounts) ∧
    (m ≠ new_id → alookup m ((Rewards.add_relocated_account s old_id new_id).1.node_accounts)
      = alookup m s.node_accounts) ∧
    (Rewards.add_relocated_account s old_id new_id).2
      = some (MessagingDuty.sendClaimRewardCounter old_id new_id) :=
  ⟨alookup_upsert_self node_id (RewardAccount.active id) s.node_accounts,
   alookup_upsert_self new_id RewardAccount.awaitingStart s.node_accounts,
   fun hm => alookup_upsert_other node_id m (RewardAccount.active id) s.node_accounts hm,
   fun hm => alookup_upsert_other new_id m RewardAccount.awaitingStart s.node_accounts hm,
   rfl⟩

/-- Witness for C1's amended claim: overwriting a live `Active(1)` entry
with `AddNewAccount(2, 0)` while name 3 keeps its entry, and name 3
also keeping its entry across `AddRelocatedAccount(9, 0)`. -/
theorem account_insertion_overwrites_witness :
    alookup 0 ((Rewards.add_account ⟨⟨[]⟩, [(0, RewardAccount.active 1),
        (3, RewardAccount.awaitingStart)]⟩ 2 0).1.node_accounts)
      = some (RewardAccount.active 2) ∧
    alookup 3 ((Rewards.add_account ⟨⟨[]⟩, [(0, RewardAccount.active 1),
        (3, RewardAccount.awaitingStart)]⟩ 2 0).1.node_accounts)
      = alookup 3 [(0, RewardAccount.active 1), (3, RewardAccount.awaitingStart)] ∧
    alookup 3 ((Rewards.add_relocated_account ⟨⟨[]⟩, [(0, RewardAccount.active 1),
        (3, RewardAccount.awaitingStart)]⟩ 9 0).1.node_accounts)
      = alookup 3 [(0, RewardAccount.active 1), (3, RewardAccount.awaitingStart)] :=
  ⟨(account_insertion_overwrites ⟨⟨[]⟩, [(0, RewardAccount.active 1),
      (3, RewardAccount.awaitingStart)]⟩ 2 9 0 0 3).1,
   (account_insertion_overwrites ⟨⟨[]⟩, [(0, RewardAccount.active 1),
      (3, RewardAccount.awaitingStart)]⟩ 2 9 0 0 3).2.2.1 (by decide),
   (account_insertion_overwrites ⟨⟨[]⟩, [(0, RewardAccount.active 1),
      (3, RewardAccount.awaitingStart)]⟩ 2 9 0 0 3).2.2.2.1 (by decide)⟩

/-- C4 counterexample: with `map[0] = AwaitingMove(5)` but no farming
account for id 5 (the state a brand-new node reaches after
`AddNewAccount` and `PrepareAccountMove`, since `AddNewAccount` never
registers a farming account), `ClaimRewardCounter` replies with the
propagated farming error and does not remove the old name or emit
`RewardCounterClaimed`. -/
theorem claim_rewards_missing_farming_cex :
    Rewards.claim_rewards ⟨⟨[]⟩, [(0, RewardAccount.awaitingMove 5)]⟩ 0 1 9 8
      = (⟨⟨[]⟩, [(0, RewardAccount.awaitingMove 5)]⟩,
         some (MessagingDuty.networkError ClaimError.farmingError 5 9 8)) ∧
    alookup 0 (Rewards.claim_rewards
        ⟨⟨[]⟩, [(0, RewardAccount.awaitingMove 5)]⟩ 0 1 9 8).1.node_accounts
      = some (RewardAccount.awaitingMove 5) := by
  decide

/-- C4 (amended): when the map holds `AwaitingMove(id)` for the old
name and the farming system holds an account for `id`, processing
`ClaimRewardCounter` claims the counter (removing it from farming),
removes the old name from the account map, and emits
`RewardCounterClaimed{new, id, counter}` for the origin; when it holds
`Active(id)` it instead replies with the `InvalidClaim` error and the
account map is unchanged.  When the farming account is missing the
handler instead replies with the farming error and removes nothing. -/
theorem claim_rewards_spec (s : Rewards) (old_node_id new_node_id msg_id origin id : Nat)
    (c : RewardCounter) (f' : FarmingSystem) :
    (alookup old_node_id s.node_accounts = some (RewardAccount.awaitingMove id) →
      s.farming.claim id = Except.ok (c, f') →
      Rewards.claim_rewards s old_node_id new_node_id msg_id origin
        = (⟨f', aremove old_node_id s.node_accounts⟩,
           some (MessagingDuty.sendRewardCounterClaimed new_node_id id c msg_id origin)) ∧
      alookup old_node_id (aremove old_node_id s.node_accounts) = none) ∧
    (alookup old_node_id s.node_accounts = some (RewardAccount.active id) →
      Rewards.claim_rewards s old_node_id new_node_id msg_id origin
        = (s, some (MessagingDuty.networkError ClaimError.invalidClaim id msg_id origin))) := by
  constructor
  · intro hacc hclaim
    refine ⟨?_, alookup_aremove_self old_node_id s.node_accounts⟩
    unfold Rewards.claim_rewards
    rw [hacc]
    dsimp only
    rw [hclaim]
  · intro hacc
    unfold Rewards.claim_rewards
    rw [hacc]

/-- Witness for C4: a concrete successful claim (counter `(5, 10)` held
for id 7) and a concrete `InvalidClaim` reply on an `Active` account. -/
theorem claim_rewards_spec_witness :
    Rewards.claim_rewards ⟨⟨[(7, ⟨5, 10⟩)]⟩, [(0, RewardAccount.awaitingMove 7)]⟩ 0 1 9 8
      = (⟨⟨[]⟩, []⟩, some (MessagingDuty.sendRewardCounterClaimed 1 7 ⟨5, 10⟩ 9 8)) ∧
    Rewards.claim_rewards ⟨⟨[]⟩, [(0, RewardAccount.active 7)]⟩ 0 1 9 8
      = (⟨⟨[]⟩, [(0, RewardAccount.active 7)]⟩,
         some (MessagingDuty.networkError ClaimError.invalidClaim 7 9 8)) :=
  ⟨((claim_rewards_spec ⟨⟨[(7, ⟨5, 10⟩)]⟩, [(0, RewardAccount.awaitingMove 7)]⟩
      0 1 9 8 7 ⟨5, 10⟩ ⟨[]⟩).1 (by decide) rfl).1,
   (claim_rewards_spec ⟨⟨[]⟩, [(0, RewardAccount.active 7)]⟩ 0 1 9 8 7 ⟨5, 10⟩ ⟨[]⟩).2
     (by decide)⟩

/-- C5 counterexample: with `map[0] = AwaitingStart` but a farming
account for id 7 already present, `ReceiveClaimedRewards(7, 0, (10,11))`
is dropped: the map entry stays `AwaitingStart` (it does not become
`Active(7)`) and no payout duty is emitted although the counter's
reward 11 is positive. -/
theorem receive_claimed_rewards_dup_cex :
    Rewards.receive_claimed_rewards
        ⟨⟨[(7, ⟨3, 4⟩)]⟩, [(0, RewardAccount.awaitingStart)]⟩ 7 0 ⟨10, 11⟩
      = (⟨⟨[(7, ⟨3, 4⟩)]⟩, [(0, RewardAccount.awaitingStart)]⟩, none) ∧
    alookup 0 (Rewards.receive_claimed_rewards
        ⟨⟨[(7, ⟨3, 4⟩)]⟩, [(0, RewardAccount.awaitingStart)]⟩ 7 0 ⟨10, 11⟩).1.node_accounts
      = some RewardAccount.awaitingStart ∧ 0 < (11 : Nat) := by
  decide

/-- C5 (amended): when the map holds `AwaitingStart` for the node and
the farming system has no account for `id` yet, processing
`ReceiveClaimedRewards(id, node, counter)` creates the farming account
with the counter's work, sets the map entry to `Active(id)`, and emits
the payout duty for `counter.reward` exactly when the reward is
positive; for an unknown node, an account not in `AwaitingStart`, or a
farming id already present, the event is dropped with no state change
and no duty. -/
theorem receive_claimed_rewards_spec (s : Rewards) (id node_id : Nat) (c : RewardCounter) :
    (alookup node_id s.node_accounts = some RewardAccount.awaitingStart →
      alookup id s.farming.accounts = none →
      alookup node_id ((Rewards.receive_claimed_rewards s id node_id c).1.node_accounts)
        = some (RewardAccount.active id) ∧
      alookup id ((Rewards.receive_claimed_rewards s id node_id c).1.farming.accounts)
        = some ⟨c.work, 0⟩ ∧
      ((Rewards.receive_claimed_rewards s id node_id c).2
        = some (MessagingDuty.payout c.reward id) ↔ 0 < c.reward)) ∧
    (alookup node_id s.node_accounts = none →
      Rewards.receive_claimed_rewards s id node_id c = (s, none)) ∧
    (∀ a, alookup node_id s.node_accounts = some a → a ≠ RewardAccount.awaitingStart →
      Rewards.receive_claimed_rewards s id node_id c = (s, none)) := by
  refine ⟨?_, ?_, ?_⟩
  · intro hacc hfarm
    have hres : Rewards.receive_claimed_rewards s id node_id c
        = (let s' : Rewards :=
            ⟨⟨(id, ⟨c.work, 0⟩) :: s.farming.accounts⟩,
             upsert node_id (RewardAccount.active id) s.node_accounts⟩
           if 0 < c.reward then (s', some (MessagingDuty.payout c.reward id))
           else (s', none)) := by
      unfold Rewards.receive_claimed_rewards FarmingSystem.add_account
      rw [hacc, hfarm]
      simp
    by_cases hrew : 0 < c.reward
    · rw [hres]
      simp only [hrew, if_pos]
      refine ⟨alookup_upsert_self _ _ _, by simp [alookup], by simp⟩
    · rw [hres]
      simp only [hrew, if_neg, if_false]
      refine ⟨alookup_upsert_self _ _ _, by simp [alookup], ?_⟩
      simp [hrew]
  · intro hacc
    unfold Rewards.receive_claimed_rewards
    rw [hacc]
  · intro a hacc hne
    unfold Rewards.receive_claimed_rewards
    rw [hacc]
    simp [hne]

/-- Witness for C5: a fresh farming id 7 received for node 0 awaiting
start, with positive reward 11. -/
theorem receive_claimed_rewards_spec_witness :
    alookup 0 ((Rewards.receive_claimed_rewards
        ⟨⟨[]⟩, [(0, RewardAccount.awaitingStart)]⟩ 7 0 ⟨10, 11⟩).1.node_accounts)
      = some (RewardAccount.active 7) ∧
    ((Rewards.receive_claimed_rewards
        ⟨⟨[]⟩, [(0, RewardAccount.awaitingStart)]⟩ 7 0 ⟨10, 11⟩).2
      = some (MessagingDuty.payout 11 7) ↔ 0 < (11 : Nat)) :=
  ⟨((receive_claimed_rewards_spec ⟨⟨[]⟩, [(0, RewardAccount.awaitingStart)]⟩ 7 0
      ⟨10, 11⟩).1 (by decide) (by decide)).1,
   ((receive_claimed_rewards_spec ⟨⟨[]⟩, [(0, RewardAccount.awaitingStart)]⟩ 7 0
      ⟨10, 11⟩).1 (by decide) (by decide)).2.2⟩

/-! ## Distribution-loop lemmas -/

theorem loopWhile_rem_zero (mult : Nat) (bs : List Bucket) (fuel : Nat)
    (cs : List (Nat × Nat)) : loopWhile mult bs fuel cs 0 = some cs := by
  cases fuel <;> rfl

theorem loopWhile_fuel_zero (mult : Nat) (bs : List Bucket) (cs : List (Nat × Nat))
    (rem : Nat) (h : rem ≠ 0) : loopWhile mult bs 0 cs rem = none := by
  cases rem with
  | zero => exact absurd rfl h
  | succ r => rfl

theorem loopWhile_step (mult : Nat) (bs : List Bucket) (fuel : Nat)
    (cs : List (Nat × Nat)) (rem : Nat) (h : rem ≠ 0) :
    loopWhile mult bs (fuel + 1) cs rem
      = loopWhile mult bs fuel (passBuckets mult bs cs rem).1 (passBuckets mult bs cs rem).2 := by
  cases rem with
  | zero => exact absurd rfl h
  | succ r => rfl

theorem passBuckets_rem_le (mult : Nat) (bs : List Bucket) :
    ∀ (cs : List (Nat × Nat)) (rem : Nat), (passBuckets mult bs cs rem).2 ≤ rem := by
  induction bs with
  | nil => intro cs rem; simp [passBuckets]
  | cons b t ih =>
      intro cs rem
      unfold passBuckets
      dsimp only
      split
      · simp [Nat.sub_le]
      · exact le_trans (ih _ _) (Nat.sub_le _ _)

theorem passBuckets_head_lt (mult : Nat) (b : Bucket) (t : List Bucket)
    (cs : List (Nat × Nat)) (rem : Nat) (hw : 1 ≤ bweight mult b) (hrem : 1 ≤ rem) :
    (passBuckets mult (b :: t) cs rem).2 ≤ rem - 1 := by
  unfold passBuckets
  dsimp only
  have hmin : 1 ≤ min (bweight mult b) rem := le_min hw hrem
  split
  · omega
  · exact le_trans (passBuckets_rem_le mult t _ _) (by omega)

theorem loopWhile_of_head_weight (mult : Nat) (b : Bucket) (t : List Bucket)
    (hw : 1 ≤ bweight mult b) :
    ∀ (fuel : Nat) (cs : List (Nat × Nat)) (rem : Nat), rem < fuel →
      (loopWhile mult (b :: t) fuel cs rem).isSome = true := by
  intro fuel
  induction fuel with
  | zero => intro cs rem h; omega
  | succ f ih =>
      intro cs rem h
      cases hrem : rem with
      | zero => rw [loopWhile_rem_zero]; rfl
      | succ r =>
          rw [loopWhile_step mult (b :: t) f cs (r + 1) (Nat.succ_ne_zero r)]
          exact ih _ _ (lt_of_le_of_lt
            (passBuckets_head_lt mult b t cs (r + 1) hw (Nat.succ_le_succ (Nat.zero_le r)))
            (by omega))

/-- The total amount credited to the counters so far. -/
def csum (cs : List (Nat × Nat)) : Nat := (cs.map Prod.snd).sum

theorem addCounter_csum (a r : Nat) (cs : List (Nat × Nat)) :
    csum (addCounter a r cs) = csum cs + r := by
  induction cs with
  | nil => simp [addCounter, csum]
  | cons hd t ih =>
      obtain ⟨a', r'⟩ := hd
      by_cases ha : a' = a
      · simp [addCounter, ha, csum]
        omega
      · simp only [addCounter, ha, if_false, csum, List.map_cons, List.sum_cons]
        have := ih
        simp only [csum] at this
        omega

theorem passBuckets_csum (mult : Nat) (bs : List Bucket) :
    ∀ (cs : List (Nat × Nat)) (rem : Nat),
      csum (passBuckets mult bs cs rem).1 + (passBuckets mult bs cs rem).2
        = csum cs + rem := by
  induction bs with
  | nil => intro cs rem; simp [passBuckets]
  | cons b t ih =>
      intro cs rem
      unfold passBuckets
      dsimp only
      have hr : min (bweight mult b) rem ≤ rem := min_le_right _ _
      have hadd := addCounter_csum b.1 (min (bweight mult b) rem) cs
      split
      · dsimp only
        omega
      · have := ih (addCounter b.1 (min (bweight mult b) rem) cs) (rem - min (bweight mult b) rem)
        omega

theorem loopWhile_csum (mult : Nat) (bs : List Bucket) :
    ∀ (fuel : Nat) (cs : List (Nat × Nat)) (rem : Nat) (cs' : List (Nat × Nat)),
      loopWhile mult bs fuel cs rem = some cs' → csum cs' = csum cs + rem := by
  intro fuel
  induction fuel with
  | zero =>
      intro cs rem cs' h
      cases rem with
      | zero =>
          rw [loopWhile_rem_zero] at h
          cases h
          omega
      | succ r =>
          rw [loopWhile_fuel_zero mult bs cs (r + 1) (Nat.succ_ne_zero r)] at h
          cases h
  | succ f ih =>
      intro cs rem cs' h
      cases rem with
      | zero =>
          rw [loopWhile_rem_zero] at h
          cases h
          omega
      | succ r =>
          rw [loopWhile_step mult bs f cs (r + 1) (Nat.succ_ne_zero r)] at h
          have h1 := ih _ _ _ h
          have h2 := passBuckets_csum mult bs cs (r + 1)
          omega

theorem addCounter_keys (a r : Nat) (cs : List (Nat × Nat)) :
    (addCounter a r cs).map Prod.fst
      = if a ∈ cs.map Prod.fst then cs.map Prod.fst else cs.map Prod.fst ++ [a] := by
  induction cs with
  | nil => simp [addCounter]
  | cons hd t ih =>
      obtain ⟨a', r'⟩ := hd
      by_cases ha : a' = a
      · simp [addCounter, ha]
      · have hne : ¬ a = a' := fun h => ha h.symm
        simp only [addCounter, ha, if_false, List.map_cons, List.mem_cons, hne, false_or, ih]
        split <;> simp

theorem addCounter_keys_mem (a r x : Nat) (cs : List (Nat × Nat))
    (hx : x ∈ (addCounter a r cs).map Prod.fst) : x = a ∨ x ∈ cs.map Prod.fst := by
  rw [addCounter_keys] at hx
  split at hx
  · exact Or.inr hx
  · rcases List.mem_append.mp hx with h | h
    · exact Or.inr h
    · simp at h
      exact Or.inl h

theorem addCounter_keys_nodup (a r : Nat) (cs : List (Nat × Nat))
    (h : (cs.map Prod.fst).Nodup) : ((addCounter a r cs).map Prod.fst).Nodup := by
  by_cases hmem : a ∈ cs.map Prod.fst
  · rw [addCounter_keys]
    simpa [hmem] using h
  · rw [addCounter_keys]
    simp only [hmem, if_false]
    refine List.Nodup.append h (List.nodup_singleton a) ?_
    intro x hx hxa
    rw [List.mem_singleton] at hxa
    subst hxa
    exact hmem hx

theorem passBuckets_keys (mult : Nat) (bs : List Bucket) :
    ∀ (cs : List (Nat × Nat)) (rem x : Nat),
      x ∈ ((passBuckets mult bs cs rem).1.map Prod.fst) →
      x ∈ cs.map Prod.fst ∨ x ∈ bs.map Prod.fst := by
  induction bs with
  | nil => intro cs rem x hx; exact Or.inl (by simpa [passBuckets] using hx)
  | cons b t ih =>
      intro cs rem x hx
      unfold passBuckets at hx
      dsimp only at hx
      split at hx
      · dsimp only at hx
        rcases addCounter_keys_mem _ _ _ _ hx with h | h
        · exact Or.inr (by simp [h])
        · exact Or.inl h
      · rcases ih _ _ _ hx with h | h
        · rcases addCounter_keys_mem _ _ _ _ h with h' | h'
          · exact Or.inr (by simp [h'])
          · exact Or.inl h'
        · exact Or.inr (List.mem_cons_of_mem _ h)

theorem passBuckets_keys_nodup (mult : Nat) (bs : List Bucket) :
    ∀ (cs : List (Nat × Nat)) (rem : Nat), (cs.map Prod.fst).Nodup →
      ((passBuckets mult bs cs rem).1.map Prod.fst).Nodup := by
  induction bs with
  | nil => intro cs rem h; simpa [passBuckets] using h
  | cons b t ih =>
      intro cs rem h
      unfold passBuckets
      dsimp only
      split
      · exact addCounter_keys_nodup _ _ _ h
      · exact ih _ _ (addCounter_keys_nodup _ _ _ h)

theorem loopWhile_keys (mult : Nat) (bs : List Bucket) :
    ∀ (fuel : Nat) (cs : List (Nat × Nat)) (rem : Nat) (cs' : List (Nat × Nat)),
      loopWhile mult bs fuel cs rem = some cs' →
      (∀ x ∈ cs'.map Prod.fst, x ∈ cs.map Prod.fst ∨ x ∈ bs.map Prod.fst) ∧
      ((cs.map Prod.fst).Nodup → (cs'.map Prod.fst).Nodup) := by
  intro fuel
  induction fuel with
  | zero =>
      intro cs rem cs' h
      cases rem with
      | zero =>
          rw [loopWhile_rem_zero] at h
          cases h
          exact ⟨fun x hx => Or.inl hx, id⟩
      | succ r =>
          rw [loopWhile_fuel_zero mult bs cs (r + 1) (Nat.succ_ne_zero r)] at h
          cases h
  | succ f ih =>
      intro cs rem cs' h
      cases rem with
      | zero =>
          rw [loopWhile_rem_zero] at h
          cases h
          exact ⟨fun x hx => Or.inl hx, id⟩
      | succ r =>
          rw [loopWhile_step mult bs f cs (r + 1) (Nat.succ_ne_zero r)] at h
          obtain ⟨h1, h2⟩ := ih _ _ _ h
          refine ⟨fun x hx => ?_, fun hnd => h2 (passBuckets_keys_nodup mult bs _ _ hnd)⟩
          rcases h1 x hx with h' | h'
          · exact passBuckets_keys mult bs _ _ _ h'
          · exact Or.inr h'

theorem sum_map_const_nat {α : Type} (l : List α) (c : Nat) :
    ((l.map fun _ => c).sum) = l.length * c := by
  induction l with
  | nil => simp
  | cons hd t ih => simp [ih]; ring

theorem splitBucket_sum (a r : Nat) (ws : List (Nat × Nat)) (h : ws ≠ []) :
    ((splitBucket a r ws).map (fun e => e.2.2.2)).sum = r := by
  cases ws with
  | nil => exact absurd rfl h
  | cons hd rest =>
      obtain ⟨n, w⟩ := hd
      have hmap : ((splitBucket a r ((n, w) :: rest)).map (fun e => e.2.2.2))
          = (r / (rest.length + 1) + r % (rest.length + 1))
            :: rest.map (fun _ => r / (rest.length + 1)) := by
        simp only [splitBucket, List.map_cons, List.map_map]
        rfl
      rw [hmap]
      simp only [List.sum_cons, sum_map_const_nat]
      have hdm := Nat.div_add_mod r (rest.length + 1)
      have hx : (rest.length + 1) * (r / (rest.length + 1))
          = rest.length * (r / (rest.length + 1)) + r / (rest.length + 1) := by
        ring
      omega

theorem splitBucket_mem (a r : Nat) (ws : List (Nat × Nat)) (e : Nat × Nat × Nat × Nat)
    (he : e ∈ splitBucket a r ws) : e.2.1 = a ∧ e.1 ∈ ws.map Prod.fst := by
  cases ws with
  | nil => simp [splitBucket] at he
  | cons hd rest =>
      obtain ⟨n, w⟩ := hd
      simp only [splitBucket, List.mem_cons] at he
      rcases he with he | he
      · subst he
        simp
      · obtain ⟨p, hp, hpe⟩ := List.mem_map.mp he
        subst hpe
        simp
        refine Or.inr ⟨p.2, ?_⟩
        simpa using hp

theorem splitBucket_names (a r : Nat) (ws : List (Nat × Nat)) :
    (splitBucket a r ws).map Prod.fst = ws.map Prod.fst := by
  cases ws with
  | nil => rfl
  | cons hd rest =>
      obtain ⟨n, w⟩ := hd
      simp [splitBucket, List.map_map]

theorem bucketFor_cases (bs : List Bucket) (a : Nat) :
    bucketFor bs a = [] ∨ ∃ b, b ∈ bs ∧ b.1 = a ∧ bucketFor bs a = b.2 := by
  unfold bucketFor
  cases hf : bs.find? (fun b => b.1 == a) with
  | none => exact Or.inl rfl
  | some b =>
      refine Or.inr ⟨b, List.mem_of_find?_eq_some hf, ?_, rfl⟩
      have := List.find?_some hf
      simpa using this

theorem bucketFor_ne_nil (bs : List Bucket) (a : Nat) (hne : ∀ b ∈ bs, b.2 ≠ [])
    (ha : a ∈ bs.map Prod.fst) : bucketFor bs a ≠ [] := by
  unfold bucketFor
  cases hf : bs.find? (fun b => b.1 == a) with
  | none =>
      obtain ⟨b, hb, hba⟩ := List.mem_map.mp ha
      have := List.find?_eq_none.mp hf b hb
      simp [hba] at this
  | some b => exact hne b (List.mem_of_find?_eq_some hf)

theorem finalize_sum (bs : List Bucket) (cs : List (Nat × Nat))
    (h : ∀ c ∈ cs, bucketFor bs c.1 ≠ []) :
    ((finalize bs cs).map (fun e => e.2.2.2)).sum = csum cs := by
  induction cs with
  | nil => rfl
  | cons c t ih =>
      have hc : (finalize bs (c :: t)) = splitBucket c.1 c.2 (bucketFor bs c.1)
          ++ finalize bs t := by
        simp [finalize]
      rw [hc, List.map_append, List.sum_append,
        splitBucket_sum c.1 c.2 _ (h c (List.mem_cons_self _ _)),
        ih (fun c' hc' => h c' (List.mem_cons_of_mem _ hc'))]
      simp [csum]

theorem finalize_mem (bs : List Bucket) (cs : List (Nat × Nat)) (e : Nat × Nat × Nat × Nat)
    (he : e ∈ finalize bs cs) :
    ∃ c ∈ cs, e ∈ splitBucket c.1 c.2 (bucketFor bs c.1) := by
  unfold finalize at he
  obtain ⟨l, hl, hel⟩ := List.mem_flatten.mp he
  obtain ⟨c, hc, hcl⟩ := List.mem_map.mp hl
  exact ⟨c, hc, by rw [hcl]; exact hel⟩

theorem finalize_names (bs : List Bucket) (cs : List (Nat × Nat)) :
    (finalize bs cs).map Prod.fst
      = (cs.map (fun c => (bucketFor bs c.1).map Prod.fst)).flatten := by
  induction cs with
  | nil => rfl
  | cons c t ih =>
      have hc : (finalize bs (c :: t)) = splitBucket c.1 c.2 (bucketFor bs c.1)
          ++ finalize bs t := by
        simp [finalize]
      rw [hc, List.map_append, splitBucket_names, ih]
      simp

/-! ## Bucket-construction lemmas -/

theorem foldl_inv {α β : Type} (P : β → Prop) (f : β → α → β) :
    ∀ (l : List α) (b : β), P b → (∀ b' x, x ∈ l → P b' → P (f b' x)) → P (l.foldl f b) := by
  intro l
  induction l with
  | nil => intro b hb _; exact hb
  | cons x t ih =>
      intro b hb hf
      exact ih (f b x) (hf b x (List.mem_cons_self _ _) hb)
        (fun b' y hy => hf b' y (List.mem_cons_of_mem _ hy))

theorem insWallet_ne_nil (n w : Nat) (ws : List (Nat × Nat)) : insWallet n w ws ≠ [] := by
  cases ws with
  | nil => simp [insWallet]
  | cons hd t =>
      obtain ⟨n', w'⟩ := hd
      unfold insWallet
      split
      · simp
      · split <;> simp

theorem insWallet_mem (n w : Nat) (ws : List (Nat × Nat)) (p : Nat × Nat)
    (hp : p ∈ insWallet n w ws) : p = (n, w) ∨ p ∈ ws := by
  induction ws with
  | nil => simpa [insWallet] using hp
  | cons hd t ih =>
      obtain ⟨n', w'⟩ := hd
      unfold insWallet at hp
      split at hp
      · rcases List.mem_cons.mp hp with h | h
        · exact Or.inl h
        · exact Or.inr h
      · split at hp
        · rcases List.mem_cons.mp hp with h | h
          · exact Or.inl h
          · exact Or.inr (List.mem_cons_of_mem _ h)
        · rcases List.mem_cons.mp hp with h | h
          · exact Or.inr (by simp [h])
          · rcases ih h with h' | h'
            · exact Or.inl h'
            · exact Or.inr (List.mem_cons_of_mem _ h')

theorem insWallet_sorted (n w : Nat) (ws : List (Nat × Nat))
    (h : List.Pairwise (fun p q : Nat × Nat => p.1 < q.1) ws) :
    List.Pairwise (fun p q : Nat × Nat => p.1 < q.1) (insWallet n w ws) := by
  induction ws with
  | nil => simp [insWallet]
  | cons hd t ih =>
      obtain ⟨n', w'⟩ := hd
      rw [List.pairwise_cons] at h
      obtain ⟨h1, h2⟩ := h
      unfold insWallet
      split
      · rename_i hlt
        refine List.Pairwise.cons ?_ (List.Pairwise.cons h1 h2)
        intro q hq
        rcases List.mem_cons.mp hq with h | h
        · simp [h]; omega
        · have := h1 q h
          simp at this ⊢
          omega
      · split
        · rename_i hnlt heq
          subst heq
          exact List.Pairwise.cons (fun q hq => h1 q hq) h2
        · rename_i hnlt hne
          refine List.Pairwise.cons ?_ (ih h2)
          intro q hq
          rcases insWallet_mem n w t q hq with h | h
          · simp [h]; omega
          · exact h1 q h

theorem insBucket_ne_nil (age n w : Nat) (bs : List Bucket) : insBucket age n w bs ≠ [] := by
  cases bs with
  | nil => simp [insBucket]
  | cons hd t =>
      obtain ⟨a, ws⟩ := hd
      unfold insBucket
      split
      · simp
      · split <;> simp

theorem insBucket_mem (age n w : Nat) (bs : List Bucket) (b : Bucket)
    (hb : b ∈ insBucket age n w bs) :
    b = (age, [(n, w)]) ∨ b ∈ bs ∨ ∃ ws, (age, ws) ∈ bs ∧ b = (age, insWallet n w ws) := by
  induction bs with
  | nil =>
      simp [insBucket] at hb
      exact Or.inl hb
  | cons hd t ih =>
      obtain ⟨a, ws⟩ := hd
      unfold insBucket at hb
      split at hb
      · rcases List.mem_cons.mp hb with h | h
        · exact Or.inl h
        · exact Or.inr (Or.inl h)
      · split at hb
        · rename_i hnlt heq
          subst heq
          rcases List.mem_cons.mp hb with h | h
          · exact Or.inr (Or.inr ⟨ws, List.mem_cons_self _ _, h⟩)
          · exact Or.inr (Or.inl (List.mem_cons_of_mem _ h))
        · rcases List.mem_cons.mp hb with h | h
          · exact Or.inr (Or.inl (by simp [h]))
          · rcases ih h with h' | h' | ⟨ws', hws', hbe⟩
            · exact Or.inl h'
            · exact Or.inr (Or.inl (List.mem_cons_of_mem _ h'))
            · exact Or.inr (Or.inr ⟨ws', List.mem_cons_of_mem _ hws', hbe⟩)

theorem insBucket_sorted (age n w : Nat) (bs : List Bucket)
    (h : List.Pairwise (fun b b' : Bucket => b.1 < b'.1) bs) :
    List.Pairwise (fun b b' : Bucket => b.1 < b'.1) (insBucket age n w bs) := by
  induction bs with
  | nil => simp [insBucket]
  | cons hd t ih =>
      obtain ⟨a, ws⟩ := hd
      rw [List.pairwise_cons] at h
      obtain ⟨h1, h2⟩ := h
      unfold insBucket
      split
      · rename_i hlt
        refine List.Pairwise.cons ?_ (List.Pairwise.cons h1 h2)
        intro q hq
        rcases List.mem_cons.mp hq with h | h
        · simp [h]; omega
        · have := h1 q h
          simp at this ⊢
          omega
      · split
        · rename_i hnlt heq
          subst heq
          exact List.Pairwise.cons (fun q hq => h1 q hq) h2
        · rename_i hnlt hne
          refine List.Pairwise.cons ?_ (ih h2)
          intro q hq
          rcases insBucket_mem age n w t q hq with h | h | ⟨ws', _, hbe⟩
          · simp [h]; omega
          · exact h1 q h
          · rw [hbe]; simp; omega

/-- The per-bucket invariants preserved by `insBucket`: nonempty,
name-sorted wallet lists, bucket age in the eligible range, and an
arbitrary name/age origin property `R` that holds for the inserted
node. -/
theorem insBucket_preserve (R : Nat → Nat → Prop) (age n w : Nat) (bs : List Bucket)
    (hbs : ∀ b ∈ bs, b.2 ≠ [] ∧
      List.Pairwise (fun p q : Nat × Nat => p.1 < q.1) b.2 ∧
      MIN_REWARD_AGE ≤ b.1 ∧ ∀ p ∈ b.2, R p.1 b.1)
    (hage : MIN_REWARD_AGE ≤ age) (hR : R n age) :
    ∀ b ∈ insBucket age n w bs, b.2 ≠ [] ∧
      List.Pairwise (fun p q : Nat × Nat => p.1 < q.1) b.2 ∧
      MIN_REWARD_AGE ≤ b.1 ∧ ∀ p ∈ b.2, R p.1 b.1 := by
  intro b hb
  rcases insBucket_mem age n w bs b hb with h | h | ⟨ws, hws, hbe⟩
  · subst h
    refine ⟨by simp, by simp, hage, ?_⟩
    intro p hp
    simp at hp
    simp [hp, hR]
  · exact hbs b h
  · obtain ⟨hne, hsorted, hage', horigin⟩ := hbs (age, ws) hws
    subst hbe
    refine ⟨insWallet_ne_nil n w ws, insWallet_sorted n w ws hsorted, hage, ?_⟩
    intro p hp
    rcases insWallet_mem n w ws p hp with h' | h'
    · simp [h', hR]
    · exact horigin p h'

/-- The structural facts about `get_buckets`: every bucket is nonempty
with a strictly name-sorted wallet list, bucket ages are strictly
sorted and at least `MIN_REWARD_AGE`, and every entry comes from an
input node of that name and age. -/
theorem get_buckets_facts (nodes : List (Nat × Nat × Nat)) :
    List.Pairwise (fun b b' : Bucket => b.1 < b'.1) (get_buckets nodes) ∧
    ∀ b ∈ get_buckets nodes, b.2 ≠ [] ∧
      List.Pairwise (fun p q : Nat × Nat => p.1 < q.1) b.2 ∧
      MIN_REWARD_AGE ≤ b.1 ∧
      ∀ p ∈ b.2, ∃ w', (p.1, b.1, w') ∈ nodes := by
  unfold get_buckets
  refine foldl_inv (fun bs =>
    List.Pairwise (fun b b' : Bucket => b.1 < b'.1) bs ∧
    ∀ b ∈ bs, b.2 ≠ [] ∧
      List.Pairwise (fun p q : Nat × Nat => p.1 < q.1) b.2 ∧
      MIN_REWARD_AGE ≤ b.1 ∧
      ∀ p ∈ b.2, ∃ w', (p.1, b.1, w') ∈ nodes) _ nodes [] ⟨by simp, by simp⟩ ?_
  intro bs x hx ⟨hsorted, hrest⟩
  by_cases hage : MIN_REWARD_AGE ≤ x.2.1
  · simp only [hage, if_true]
    exact ⟨insBucket_sorted _ _ _ _ hsorted,
      insBucket_preserve (fun nm ag => ∃ w', (nm, ag, w') ∈ nodes) x.2.1 x.1 x.2.2 bs hrest
        hage ⟨x.2.2, by simpa using hx⟩⟩
  · rw [if_neg hage]
    exact ⟨hsorted, hrest⟩

theorem get_buckets_ne_nil (nodes : List (Nat × Nat × Nat)) (x : Nat × Nat × Nat)
    (hx : x ∈ nodes) (hage : MIN_REWARD_AGE ≤ x.2.1) : get_buckets nodes ≠ [] := by
  unfold get_buckets
  have haux : ∀ (l : List (Nat × Nat × Nat)) (acc : List Bucket),
      ((∃ y ∈ l, MIN_REWARD_AGE ≤ y.2.1) ∨ acc ≠ []) →
      l.foldl (fun bs node =>
        if MIN_REWARD_AGE ≤ node.2.1 then insBucket node.2.1 node.1 node.2.2 bs else bs)
        acc ≠ [] := by
    intro l
    induction l with
    | nil =>
        intro acc h
        rcases h with ⟨y, hy, _⟩ | h
        · simp at hy
        · simpa using h
    | cons y t ih =>
        intro acc h
        simp only [List.foldl_cons]
        apply ih
        rcases h with ⟨z, hz, hzage⟩ | hacc
        · rcases List.mem_cons.mp hz with h' | h'
          · subst h'
            right
            simp [hzage]
            exact insBucket_ne_nil _ _ _ _
          · exact Or.inl ⟨z, h', hzage⟩
        · right
          split
          · exact insBucket_ne_nil _ _ _ _
          · exact hacc
  exact haux nodes [] (Or.inl ⟨x, hx, hage⟩)

theorem get_buckets_no_eligible (nodes : List (Nat × Nat × Nat))
    (h : ∀ x ∈ nodes, x.2.1 < MIN_REWARD_AGE) : get_buckets nodes = [] := by
  unfold get_buckets
  refine foldl_inv (fun bs => bs = []) _ nodes [] rfl ?_
  intro bs x hx hbs
  have := h x hx
  simp [Nat.not_le.mpr this, hbs]

theorem alist_nodup_eq {α : Type} (l : List (Nat × α)) (h : (l.map Prod.fst).Nodup)
    (a : Nat) (x y : α) (hx : (a, x) ∈ l) (hy : (a, y) ∈ l) : x = y := by
  induction l with
  | nil => simp at hx
  | cons hd t ih =>
      obtain ⟨k, v⟩ := hd
      simp only [List.map_cons, List.nodup_cons] at h
      obtain ⟨hk, ht⟩ := h
      rcases List.mem_cons.mp hx with h1 | h1 <;> rcases List.mem_cons.mp hy with h2 | h2
      · cases h1; cases h2; rfl
      · cases h1
        exact absurd (by simpa using List.mem_map_of_mem Prod.fst h2) hk
      · cases h2
        exact absurd (by simpa using List.mem_map_of_mem Prod.fst h1) hk
      · exact ih ht h1 h2

/-- Names found in a bucket for age `a` originate from input nodes of
age `a`. -/
theorem bucketFor_origin (nodes : List (Nat × Nat × Nat)) (a x : Nat)
    (hx : x ∈ (bucketFor (get_buckets nodes) a).map Prod.fst) :
    ∃ w', (x, a, w') ∈ nodes := by
  rcases bucketFor_cases (get_buckets nodes) a with hnil | ⟨b, hb, hba, hbeq⟩
  · rw [hnil] at hx
    simp at hx
  · rw [hbeq] at hx
    obtain ⟨p, hp, hpx⟩ := List.mem_map.mp hx
    obtain ⟨_, _, _, horigin⟩ := (get_buckets_facts nodes).2 b hb
    obtain ⟨w', hw'⟩ := horigin p hp
    exact ⟨w', by rwa [hpx, hba] at hw'⟩

/-- C2 counterexample: with a single eligible node (name 0, age 6) and
`amount = 0`, the `while` loop body never runs, the counters map stays
empty and the result is the empty map — the non-excluded node does not
appear in the result at all, against the claim that every non-excluded
node appears exactly once. -/
theorem distribute_missing_node_cex :
    distribute_rewards 0 [(0, 6, 0)] = some [] ∧ MIN_REWARD_AGE ≤ 6 ∧
    ¬ ∃ w s, ((0, 6, w, s) : Nat × Nat × Nat × Nat) ∈ ([] : List (Nat × Nat × Nat × Nat)) := by
  refine ⟨by decide, by decide, ?_⟩
  rintro ⟨w, s, h⟩
  simp at h

/-- C2 (amended): `distribute_rewards` excludes every node of age below
`MIN_REWARD_AGE`; when no node is eligible the result is empty; when at
least one node is eligible and the loop terminates, the sum of the
returned shares equals `amount`; every returned entry carries an age at
least `MIN_REWARD_AGE` and the name of an input node of that age, and
(for a duplicate-free input map) each name appears at most once — but a
non-excluded node can be absent when the remaining amount reaches zero
before its bucket is first credited (in particular the result is empty
for `amount = 0`). -/
theorem distribute_rewards_spec (amount : Nat) (nodes : List (Nat × Nat × Nat))
    (res : List (Nat × Nat × Nat × Nat)) :
    (distribute_rewards amount nodes = some res →
      ((∃ x ∈ nodes, MIN_REWARD_AGE ≤ x.2.1) →
        (res.map (fun e => e.2.2.2)).sum = amount) ∧
      (∀ e ∈ res, MIN_REWARD_AGE ≤ e.2.1 ∧ ∃ w', (e.1, e.2.1, w') ∈ nodes) ∧
      ((nodes.map Prod.fst).Nodup → (res.map Prod.fst).Nodup)) ∧
    ((∀ x ∈ nodes, x.2.1 < MIN_REWARD_AGE) → distribute_rewards amount nodes = some []) := by
  constructor
  · intro hsome
    by_cases hbs : get_buckets nodes = []
    · have hres : res = [] := by
        unfold distribute_rewards distribute at hsome
        rw [hbs] at hsome
        simpa using hsome.symm
      subst hres
      refine ⟨?_, by simp, by simp⟩
      rintro ⟨x, hx, hage⟩
      exact absurd hbs (get_buckets_ne_nil nodes x hx hage)
    · unfold distribute_rewards distribute at hsome
      rw [if_neg (by simpa [List.isEmpty_iff] using hbs)] at hsome
      obtain ⟨cs, hcs, hfin⟩ := Option.map_eq_some'.mp hsome
      obtain ⟨hsorted, hfacts⟩ := get_buckets_facts nodes
      have hnonempty : ∀ b ∈ get_buckets nodes, b.2 ≠ [] := fun b hb => (hfacts b hb).1
      obtain ⟨hkeys, hkeysnodup⟩ := loopWhile_keys _ _ _ _ _ _ hcs
      have hkeysbs : ∀ x ∈ cs.map Prod.fst, x ∈ (get_buckets nodes).map Prod.fst := by
        intro x hx
        rcases hkeys x hx with h | h
        · simp at h
        · exact h
      have hbne : ∀ c ∈ cs, bucketFor (get_buckets nodes) c.1 ≠ [] := by
        intro c hc
        exact bucketFor_ne_nil _ _ hnonempty (hkeysbs c.1 (List.mem_map_of_mem Prod.fst hc))
      refine ⟨?_, ?_, ?_⟩
      · intro _
        rw [← hfin, finalize_sum _ cs hbne]
        have := loopWhile_csum _ _ _ _ _ _ hcs
        simpa [csum] using this
      · intro e he
        rw [← hfin] at he
        obtain ⟨c, hc, hesplit⟩ := finalize_mem _ cs e he
        rcases bucketFor_cases (get_buckets nodes) c.1 with hnil | ⟨b, hb, hba, hbeq⟩
        · rw [hnil] at hesplit
          simp [splitBucket] at hesplit
        · obtain ⟨hagee, hnamee⟩ := splitBucket_mem c.1 c.2 _ e hesplit
          obtain ⟨_, _, hage6, _⟩ := hfacts b hb
          have horigin := bucketFor_origin nodes c.1 e.1 hnamee
          rw [hagee]
          refine ⟨?_, horigin⟩
          omega
      · intro hnodup
        rw [← hfin, finalize_names]
        rw [List.nodup_flatten]
        constructor
        · intro l hl
          obtain ⟨c, _, hcl⟩ := List.mem_map.mp hl
          rcases bucketFor_cases (get_buckets nodes) c.1 with hnil | ⟨b, hb, _, hbeq⟩
          · rw [← hcl, hnil]
            simp
          · rw [← hcl, hbeq]
            have hws := (hfacts b hb).2.1
            exact List.Pairwise.map Prod.fst (fun p q h => Nat.ne_of_lt h) hws
        · have hcsnodup : (cs.map Prod.fst).Nodup := hkeysnodup (by simp)
          have hpw : List.Pairwise (fun c c' : Nat × Nat => c.1 ≠ c'.1) cs :=
            List.pairwise_map.mp hcsnodup
          rw [List.pairwise_map]
          refine List.Pairwise.imp ?_ hpw
          intro c c' hne
          intro x hx1 hx2
          obtain ⟨w1, hw1⟩ := bucketFor_origin nodes c.1 x hx1
          obtain ⟨w2, hw2⟩ := bucketFor_origin nodes c'.1 x hx2
          have := alist_nodup_eq nodes hnodup x (c.1, w1) (c'.1, w2) hw1 hw2
          rw [Prod.mk.injEq] at this
          exact hne this.1
  · intro h
    unfold distribute_rewards distribute
    rw [get_buckets_no_eligible nodes h]
    rfl

/-- Witness for C2: nodes 0 (age 6) and 1 (age 7) with amount 192; the
returned shares 64 and 128 sum to the amount and the names are
distinct. -/
theorem distribute_rewards_spec_witness :
    (([(0, 6, 10, 64), (1, 7, 11, 128)] : List (Nat × Nat × Nat × Nat)).map
        (fun e => e.2.2.2)).sum = 192 ∧
    (([(0, 6, 10, 64), (1, 7, 11, 128)] : List (Nat × Nat × Nat × Nat)).map Prod.fst).Nodup :=
  have h := (distribute_rewards_spec 192 [(0, 6, 10), (1, 7, 11)]
      [(0, 6, 10, 64), (1, 7, 11, 128)]).1 (by decide)
  ⟨h.1 ⟨(0, 6, 10), by decide, by decide⟩, h.2.2 (by decide)⟩

/-! ## Exact full-pass analysis of the distribution loop (for the
age-weight claim): when the remaining amount is a multiple of the total
per-pass payout, every pass credits each bucket exactly its weight. -/

/-- One full untruncated pass of counter credits. -/
def foldAddW (mult : Nat) (bs : List Bucket) (cs : List (Nat × Nat)) : List (Nat × Nat) :=
  bs.foldl (fun c b => addCounter b.1 (bweight mult b) c) cs

theorem passBuckets_full (mult : Nat) :
    ∀ (bs : List Bucket) (cs : List (Nat × Nat)) (rem : Nat),
      (∀ b ∈ bs, 1 ≤ bweight mult b) → (bs.map (bweight mult)).sum ≤ rem →
      passBuckets mult bs cs rem
        = (foldAddW mult bs cs, rem - (bs.map (bweight mult)).sum) := by
  intro bs
  induction bs with
  | nil => intro cs rem _ _; simp [passBuckets, foldAddW]
  | cons b t ih =>
      intro cs rem hw hsum
      have hsum' : bweight mult b + (t.map (bweight mult)).sum ≤ rem := by
        simpa using hsum
      unfold passBuckets
      dsimp only
      rw [min_eq_left (by omega)]
      split
      · rename_i hzero
        cases t with
        | nil =>
            rw [show (([b] : List Bucket).map (bweight mult)).sum = bweight mult b by simp]
            rfl
        | cons b' t' =>
            exfalso
            have h1 : 1 ≤ bweight mult b' :=
              hw b' (List.mem_cons_of_mem _ (List.mem_cons_self _ _))
            have h2 : bweight mult b' ≤ ((b' :: t').map (bweight mult)).sum := by
              simp only [List.map_cons, List.sum_cons]
              omega
            omega
      · rename_i hzero
        rw [ih (addCounter b.1 (bweight mult b) cs) (rem - bweight mult b)
          (fun b' hb' => hw b' (List.mem_cons_of_mem _ hb')) (by omega)]
        have h2 : rem - bweight mult b - (t.map (bweight mult)).sum
            = rem - ((b :: t).map (bweight mult)).sum := by
          simp
          omega
        rw [h2]
        rfl

theorem loopWhile_exact (mult : Nat) (bs : List Bucket)
    (hw : ∀ b ∈ bs, 1 ≤ bweight mult b) (hW : 1 ≤ (bs.map (bweight mult)).sum) :
    ∀ (k fuel : Nat) (cs : List (Nat × Nat)), k ≤ fuel →
      loopWhile mult bs fuel cs (k * (bs.map (bweight mult)).sum)
        = some ((fun c => foldAddW mult bs c)^[k] cs) := by
  intro k
  induction k with
  | zero =>
      intro fuel cs _
      rw [Nat.zero_mul, loopWhile_rem_zero]
      rfl
  | succ k ih =>
      intro fuel cs hk
      cases fuel with
      | zero => omega
      | succ f =>
          have hrem : (k + 1) * (bs.map (bweight mult)).sum ≠ 0 :=
            Nat.mul_ne_zero (Nat.succ_ne_zero k) (by omega)
          rw [loopWhile_step mult bs f cs _ hrem,
            passBuckets_full mult bs cs _ hw
              (by
                have h1 : 1 * (bs.map (bweight mult)).sum
                    ≤ (k + 1) * (bs.map (bweight mult)).sum :=
                  Nat.mul_le_mul_right _ (by omega)
                omega)]
          dsimp only
          rw [Nat.succ_mul, Nat.add_sub_cancel, ih f (foldAddW mult bs cs) (by omega),
            Function.iterate_succ_apply]

theorem addCounter_skip (a r a' x : Nat) (l : List (Nat × Nat)) (h : a' ≠ a) :
    addCounter a r ((a', x) :: l) = (a', x) :: addCounter a r l := by
  simp [addCounter, h]

theorem foldAddW_skip (mult : Nat) :
    ∀ (bs : List Bucket) (l : List (Nat × Nat)) (a' x : Nat),
      a' ∉ bs.map Prod.fst →
      foldAddW mult bs ((a', x) :: l) = (a', x) :: foldAddW mult bs l := by
  intro bs
  induction bs with
  | nil => intro l a' x _; rfl
  | cons b t ih =>
      intro l a' x ha
      have hne : a' ≠ b.1 := by
        intro h
        exact ha (by simp [h])
      have hat : a' ∉ t.map Prod.fst := by
        intro h
        exact ha (by simp [h])
      show foldAddW mult t (addCounter b.1 (bweight mult b) ((a', x) :: l))
        = (a', x) :: foldAddW mult t (addCounter b.1 (bweight mult b) l)
      rw [addCounter_skip _ _ _ _ _ hne]
      exact ih _ _ _ hat

theorem foldAddW_map (mult : Nat) :
    ∀ (bs : List Bucket), (bs.map Prod.fst).Nodup → ∀ (g : Bucket → Nat),
      foldAddW mult bs (bs.map (fun b => (b.1, g b)))
        = bs.map (fun b => (b.1, g b + bweight mult b)) := by
  intro bs
  induction bs with
  | nil => intro _ g; rfl
  | cons b t ih =>
      intro hnodup g
      simp only [List.map_cons, List.nodup_cons] at hnodup
      obtain ⟨hb, ht⟩ := hnodup
      show foldAddW mult t (addCounter b.1 (bweight mult b)
          ((b.1, g b) :: t.map (fun b' => (b'.1, g b')))) = _
      rw [show addCounter b.1 (bweight mult b)
          ((b.1, g b) :: t.map (fun b' => (b'.1, g b')))
          = (b.1, g b + bweight mult b) :: t.map (fun b' => (b'.1, g b')) by
        simp [addCounter]]
      rw [foldAddW_skip mult t _ _ _ hb, ih ht g]
      rfl

theorem foldAddW_nil_start (mult : Nat) :
    ∀ (bs : List Bucket), (bs.map Prod.fst).Nodup →
      foldAddW mult bs [] = bs.map (fun b => (b.1, bweight mult b)) := by
  intro bs
  induction bs with
  | nil => intro _; rfl
  | cons b t ih =>
      intro hnodup
      simp only [List.map_cons, List.nodup_cons] at hnodup
      obtain ⟨hb, ht⟩ := hnodup
      show foldAddW mult t (addCounter b.1 (bweight mult b) []) = _
      rw [show addCounter b.1 (bweight mult b) [] = [(b.1, bweight mult b)] from rfl]
      rw [foldAddW_skip mult t [] _ _ hb, ih ht]
      rfl

theorem foldAddW_iterate (mult : Nat) (bs : List Bucket)
    (hnodup : (bs.map Prod.fst).Nodup) :
    ∀ k : Nat, (fun c => foldAddW mult bs c)^[k + 1] []
      = bs.map (fun b => (b.1, (k + 1) * bweight mult b)) := by
  intro k
  induction k with
  | zero =>
      rw [Function.iterate_one]
      rw [foldAddW_nil_start mult bs hnodup]
      simp
  | succ k ih =>
      rw [Function.iterate_succ_apply', ih]
      rw [foldAddW_map mult bs hnodup (fun b => (k + 1) * bweight mult b)]
      have : (fun b : Bucket => (b.1, (k + 1) * bweight mult b + bweight mult b))
          = fun b : Bucket => (b.1, (k + 1 + 1) * bweight mult b) := by
        funext b
        simp
        ring
      rw [this]

theorem bucketFor_self (bs : List Bucket) (hnodup : (bs.map Prod.fst).Nodup) (b : Bucket)
    (hb : b ∈ bs) : bucketFor bs b.1 = b.2 := by
  induction bs with
  | nil => simp at hb
  | cons hd t ih =>
      simp only [List.map_cons, List.nodup_cons] at hnodup
      obtain ⟨hhd, ht⟩ := hnodup
      rcases List.mem_cons.mp hb with h | h
      · subst h
        unfold bucketFor
        simp [List.find?_cons]
      · have hne : hd.1 ≠ b.1 := by
          intro he
          exact hhd (by rw [he]; exact List.mem_map_of_mem Prod.fst h)
        unfold bucketFor at ih ⊢
        rw [List.find?_cons_of_neg _ (by simp [hne])]
        exact ih ht h

theorem splitBucket_share_exact (a q : Nat) (ws : List (Nat × Nat)) (hne : ws ≠ [])
    (e : Nat × Nat × Nat × Nat) (he : e ∈ splitBucket a (q * ws.length) ws) :
    e.2.2.2 = q ∧ e.2.1 = a := by
  cases ws with
  | nil => exact absurd rfl hne
  | cons hd rest =>
      obtain ⟨n, w⟩ := hd
      have hlen : ((n, w) :: rest).length = rest.length + 1 := rfl
      have hdiv : q * ((n, w) :: rest).length / ((n, w) :: rest).length = q :=
        Nat.mul_div_cancel q (by simp)
      have hmod : q * ((n, w) :: rest).length % ((n, w) :: rest).length = 0 :=
        Nat.mul_mod_left _ _
      simp only [splitBucket, hdiv, hmod, Nat.add_zero, List.mem_cons] at he
      rcases he with he | he
      · subst he
        simp
      · obtain ⟨p, _, hpe⟩ := List.mem_map.mp he
        subst hpe
        simp

/-- The bweight of a bucket under a no-overflow hypothesis is the exact
product `2^age * size * mult`. -/
theorem bweight_no_overflow (mult : Nat) (b : Bucket) (hlen : 1 ≤ b.2.length)
    (hmult : 1 ≤ mult) (hlt : 2 ^ b.1 * b.2.length * mult < U64) :
    bweight mult b = 2 ^ b.1 * b.2.length * mult := by
  have h1 : 2 ^ b.1 ≤ 2 ^ b.1 * b.2.length * mult := by
    calc 2 ^ b.1 = 2 ^ b.1 * 1 * 1 := by ring
      _ ≤ 2 ^ b.1 * b.2.length * mult :=
        Nat.mul_le_mul (Nat.mul_le_mul_left _ hlen) hmult
  have h2 : 2 ^ b.1 * b.2.length ≤ 2 ^ b.1 * b.2.length * mult := by
    calc 2 ^ b.1 * b.2.length = 2 ^ b.1 * b.2.length * 1 := by ring
      _ ≤ 2 ^ b.1 * b.2.length * mult := Nat.mul_le_mul_left _ hmult
  unfold bweight wmul pow2w
  rw [Nat.mod_eq_of_lt (lt_of_le_of_lt h1 hlt), Nat.mod_eq_of_lt (lt_of_le_of_lt h2 hlt),
    Nat.mod_eq_of_lt hlt]

/-- C8 counterexample: nodes 0 (age 6) and 1 (age 7) with amount 65.
The age-6 bucket takes 64 on the first pass, leaving 1 for the age-7
bucket, so the rewarded age-7 node receives 1 while the rewarded age-6
node receives 64 — the higher-age node gets strictly less. -/
theorem distribute_weight_cex :
    distribute_rewards 65 [(0, 6, 10), (1, 7, 11)]
      = some [(0, 6, 10, 64), (1, 7, 11, 1)] ∧ ¬ (64 : Nat) ≤ 1 := by
  constructor
  · decide
  · decide

/-- C8 (amended): in a run of `distribute_rewards` in which the `u64`
products `2^age * bucket_size * bucket_multiplier` do not overflow and
the amount is an exact multiple `k` of the total per-pass payout (so
the loop ends exactly at a pass boundary), every rewarded node of age
`a` receives exactly `k * 2^a * bucket_multiplier` — one age group
weighing `2^age` per node relative to others — and in particular for
rewarded nodes of ages `a` and `a + 1` the higher-age node's share is
at least (indeed exactly twice) the lower-age node's.  For general
amounts the truncated final pass can give a higher-age node less (see
the counterexample). -/
theorem distribute_weight_proportional (amount k : Nat) (nodes : List (Nat × Nat × Nat))
    (res : List (Nat × Nat × Nat × Nat))
    (hres : distribute_rewards amount nodes = some res)
    (hnowrap : ∀ b ∈ get_buckets nodes,
      2 ^ b.1 * b.2.length * multOf amount (get_buckets nodes) < U64)
    (hamount : amount
      = k * ((get_buckets nodes).map (bweight (multOf amount (get_buckets nodes)))).sum) :
    (∀ e ∈ res, e.2.2.2 = k * 2 ^ e.2.1 * multOf amount (get_buckets nodes)) ∧
    (∀ n1 w1 s1 n2 w2 s2 a, (n1, a, w1, s1) ∈ res → (n2, a + 1, w2, s2) ∈ res →
      s1 ≤ s2) := by
  have hshare : ∀ e ∈ res, e.2.2.2 = k * 2 ^ e.2.1 * multOf amount (get_buckets nodes) := by
    by_cases hbs : get_buckets nodes = []
    · have hresnil : res = [] := by
        unfold distribute_rewards distribute at hres
        rw [hbs] at hres
        simpa using hres.symm
      subst hresnil
      simp
    · unfold distribute_rewards distribute at hres
      rw [if_neg (by simpa [List.isEmpty_iff] using hbs)] at hres
      obtain ⟨hsorted, hfacts⟩ := get_buckets_facts nodes
      have hagesnodup : ((get_buckets nodes).map Prod.fst).Nodup :=
        List.Pairwise.map Prod.fst (fun p q h => Nat.ne_of_lt h) hsorted
      have hmult : 1 ≤ multOf amount (get_buckets nodes) := le_max_left _ _
      have hweq : ∀ b ∈ get_buckets nodes,
          bweight (multOf amount (get_buckets nodes)) b
            = 2 ^ b.1 * b.2.length * multOf amount (get_buckets nodes) := by
        intro b hb
        have hlen : 1 ≤ b.2.length := by
          have := (hfacts b hb).1
          cases hb2 : b.2 with
          | nil => exact absurd hb2 this
          | cons x xs => simp
        exact bweight_no_overflow _ b hlen hmult (hnowrap b hb)
      have hw1 : ∀ b ∈ get_buckets nodes,
          1 ≤ bweight (multOf amount (get_buckets nodes)) b := by
        intro b hb
        rw [hweq b hb]
        have hlen : 1 ≤ b.2.length := by
          have := (hfacts b hb).1
          cases hb2 : b.2 with
          | nil => exact absurd hb2 this
          | cons x xs => simp
        have hp : 1 ≤ 2 ^ b.1 := Nat.one_le_two_pow
        calc 1 = 1 * 1 * 1 := rfl
          _ ≤ 2 ^ b.1 * b.2.length * multOf amount (get_buckets nodes) :=
            Nat.mul_le_mul (Nat.mul_le_mul hp hlen) hmult
      cases k with
      | zero =>
          have hamount0 : amount = 0 := by simpa using hamount
          have hresnil : res = [] := by
            rw [hamount0, loopWhile_rem_zero] at hres
            have : finalize (get_buckets nodes) [] = res := by simpa using hres
            rw [← this]
            rfl
          subst hresnil
          simp
      | succ k' =>
          have hW : 1 ≤ ((get_buckets nodes).map
              (bweight (multOf amount (get_buckets nodes)))).sum := by
            obtain ⟨b0, hb0⟩ : ∃ b0, b0 ∈ get_buckets nodes := by
              cases hgb : get_buckets nodes with
              | nil => exact absurd hgb hbs
              | cons x xs => exact ⟨x, List.mem_cons_self _ _⟩
            have h1 := hw1 b0 hb0
            have h2 : bweight (multOf amount (get_buckets nodes)) b0
                ≤ ((get_buckets nodes).map
                    (bweight (multOf amount (get_buckets nodes)))).sum :=
              List.single_le_sum (fun x _ => Nat.zero_le x) _
                (List.mem_map_of_mem _ hb0)
            omega
          have hkle : k' + 1 ≤ amount + 1 := by
            have h1 : k' + 1 ≤ (k' + 1) * ((get_buckets nodes).map
                (bweight (multOf amount (get_buckets nodes)))).sum := by
              calc k' + 1 = (k' + 1) * 1 := by ring
                _ ≤ _ := Nat.mul_le_mul_left _ hW
            omega
          have hloop := loopWhile_exact (multOf amount (get_buckets nodes))
            (get_buckets nodes) hw1 hW (k' + 1) (amount + 1) [] hkle
          rw [← hamount] at hloop
          rw [hloop] at hres
          have hcs : (fun c => foldAddW (multOf amount (get_buckets nodes))
              (get_buckets nodes) c)^[k' + 1] []
              = (get_buckets nodes).map (fun b => (b.1,
                  (k' + 1) * bweight (multOf amount (get_buckets nodes)) b)) :=
            foldAddW_iterate _ _ hagesnodup k'
          rw [hcs] at hres
          have hresval : finalize (get_buckets nodes)
              ((get_buckets nodes).map (fun b => (b.1,
                (k' + 1) * bweight (multOf amount (get_buckets nodes)) b))) = res := by
            simpa using hres
          intro e he
          rw [← hresval] at he
          obtain ⟨c, hc, hesplit⟩ := finalize_mem _ _ e he
          obtain ⟨b, hb, hceq⟩ := List.mem_map.mp hc
          have hbfor : bucketFor (get_buckets nodes) c.1 = b.2 := by
            rw [← hceq]
            exact bucketFor_self _ hagesnodup b hb
          rw [hbfor] at hesplit
          have hc1 : c.1 = b.1 := by rw [← hceq]
          have hc2 : c.2 = (k' + 1) * bweight (multOf amount (get_buckets nodes)) b := by
            rw [← hceq]
          rw [hc1, hc2] at hesplit
          have hrval : (k' + 1) * bweight (multOf amount (get_buckets nodes)) b
              = ((k' + 1) * 2 ^ b.1 * multOf amount (get_buckets nodes)) * b.2.length := by
            rw [hweq b hb]
            ring
          rw [hrval] at hesplit
          obtain ⟨hs, ha⟩ := splitBucket_share_exact b.1 _ b.2 (hfacts b hb).1 e hesplit
          rw [hs, ha]
  refine ⟨hshare, ?_⟩
  intro n1 w1 s1 n2 w2 s2 a h1 h2
  have e1 := hshare (n1, a, w1, s1) h1
  have e2 := hshare (n2, a + 1, w2, s2) h2
  simp only at e1 e2
  rw [e1, e2]
  have hpow : 2 ^ a ≤ 2 ^ (a + 1) := Nat.pow_le_pow_right (by omega) (by omega)
  exact Nat.mul_le_mul_right _ (Nat.mul_le_mul_left _ hpow)

/-- Witness for C8: amount 192 over nodes of ages 6 and 7 is one exact
pass (`k = 1`, total per-pass payout 192): the age-6 node's share is
`1 * 2^6 * 1 = 64` and the age-7 node's 128 is at least it. -/
theorem distribute_weight_proportional_witness :
    (64 : Nat) = 1 * 2 ^ 6 * multOf 192 (get_buckets [(0, 6, 10), (1, 7, 11)]) ∧
    (64 : Nat) ≤ 128 :=
  have h := distribute_weight_proportional 192 1 [(0, 6, 10), (1, 7, 11)]
    [(0, 6, 10, 64), (1, 7, 11, 128)] (by decide) (by decide) (by decide)
  ⟨h.1 (0, 6, 10, 64) (by decide), h.2 0 10 64 1 11 128 6 (by decide) (by decide)⟩

/-- C9 counterexample: for two eligible nodes of age 63 (below 64, as
the claim requires), the per-pass bucket reward
`(2^63 * 2) * bucket_multiplier` wraps to 0 in `u64`, so a pass never
decreases the remaining amount: `distribute_rewards 100` diverges (the
model returns `none` for its fuel, and no amount of fuel makes the
`while` loop reach zero). -/
theorem distribute_nonterminating_cex :
    distribute_rewards 100 [(0, 63, 5), (1, 63, 6)] = none ∧
    ¬ ∃ fuel, (loopWhile (multOf 100 (get_buckets [(0, 63, 5), (1, 63, 6)]))
        (get_buckets [(0, 63, 5), (1, 63, 6)]) fuel [] 100).isSome = true := by
  have hbs : get_buckets [(0, 63, 5), (1, 63, 6)] = [(63, [(0, 5), (1, 6)])] := by decide
  have hmult : multOf 100 [(63, [(0, 5), (1, 6)])] = 1 := by decide
  have hw : bweight 1 (63, [(0, 5), (1, 6)]) = 0 := by decide
  have hpass : ∀ cs, passBuckets 1 [(63, [(0, 5), (1, 6)])] cs 100
      = (addCounter 63 0 cs, 100) := by
    intro cs
    unfold passBuckets
    rw [hw]
    simp [passBuckets]
  have hloop : ∀ fuel cs, loopWhile 1 [(63, [(0, 5), (1, 6)])] fuel cs 100 = none := by
    intro fuel
    induction fuel with
    | zero => intro cs; exact loopWhile_fuel_zero _ _ _ _ (by omega)
    | succ f ih =>
        intro cs
        rw [loopWhile_step 1 _ f cs 100 (by omega), hpass cs]
        exact ih _
  constructor
  · unfold distribute_rewards distribute
    rw [hbs, hmult]
    simp [hloop]
  · rintro ⟨fuel, hf⟩
    rw [hbs, hmult, hloop fuel []] at hf
    simp at hf

/-- C9 (amended): the bucket multiplier is always at least 1, and the
distribution loop terminates for every amount whenever the `u64`
product `2^age * bucket_size * bucket_multiplier` of the first bucket
does not truncate to zero (in particular whenever every eligible age is
below 64 and these products do not overflow `u64`): each pass over the
buckets then strictly decreases the remaining amount, which reaches
zero within `amount` passes.  With truncation to zero the loop diverges
(see the counterexample). -/
theorem distribute_terminating (amount : Nat) (b : Bucket) (t : List Bucket)
    (hw : 1 ≤ bweight (multOf amount (b :: t)) b) :
    1 ≤ multOf amount (b :: t) ∧
    (∀ cs rem, 1 ≤ rem →
      (passBuckets (multOf amount (b :: t)) (b :: t) cs rem).2 < rem) ∧
    (distribute amount (b :: t)).isSome = true := by
  refine ⟨le_max_left _ _, ?_, ?_⟩
  · intro cs rem hrem
    have := passBuckets_head_lt (multOf amount (b :: t)) b t cs rem hw hrem
    omega
  · unfold distribute
    have hne : (b :: t).isEmpty = false := rfl
    rw [hne]
    simp only [Bool.false_eq_true, if_false]
    have := loopWhile_of_head_weight (multOf amount (b :: t)) b t hw (amount + 1) []
      amount (by omega)
    cases hl : loopWhile (multOf amount (b :: t)) (b :: t) (amount + 1) [] amount with
    | none => rw [hl] at this; simp at this
    | some cs => simp

/-- Witness for C9: one bucket of age 6 with one node and amount 5; the
head-bucket weight is `64 ≥ 1` and the loop terminates. -/
theorem distribute_terminating_witness :
    1 ≤ multOf 5 [(6, [(0, 10)])] ∧ (distribute 5 [(6, [(0, 10)])]).isSome = true :=
  ⟨(distribute_terminating 5 (6, [(0, 10)]) [] (by decide)).1,
   (distribute_terminating 5 (6, [(0, 10)]) [] (by decide)).2.2⟩

end SnNode
